import Mathlib

/-!
Verification of an append-only string arena (AOSA).

The arena owns a fixed-capacity byte buffer and a write offset; the only
mutation is appending a byte string, which either fails with a capacity
error (carrying the shortfall) or copies the bytes into the tail and
returns a handle over the freshly written range.

The embedding models the buffer as a list of bytes (each byte a Nat) and
the usize machine word of the 64-bit target as arithmetic modulo 2^64:
the candidate offset in the source is computed by usize addition, which
wraps in release builds.  A write through an out-of-range or
length-mismatched slice aborts the program; that abort is made explicit
as the AddOutcome.panicked constructor.  Uninitialized buffer bytes are
modelled as zeros; no theorem below depends on their value.
-/

/-- Size of the usize machine word on the 64-bit target; usize addition wraps
modulo this constant. -/
def USIZE : Nat := 2 ^ 64

/-- The largest allocation the layout construction accepts: requesting more
than the signed-word maximum makes the unwrap in the constructor abort. -/
def ISIZE_MAX : Nat := 2 ^ 63 - 1

/-- The arena state: backing byte buffer (whose length is the capacity) and
the current write offset, mirroring the two fields of the source struct. -/
structure StringArena where
  arena : List Nat
  idx : Nat
  deriving DecidableEq

/-- A handle returned by a successful append: a view of the half-open byte
range [start, stop) of the arena buffer. -/
structure Handle where
  start : Nat
  stop : Nat
  deriving DecidableEq

/-- Result of one append call: success with a handle, the capacity error
carrying the shortfall, or a program abort from a bad slice operation. -/
inductive AddOutcome where
  | ok (h : Handle)
  | exceedsCapacity (shortfall : Nat)
  | panicked
  deriving DecidableEq

/-- Construction with a given capacity.  The layout construction aborts when
the requested size exceeds ISIZE_MAX, hence the Option; otherwise the buffer
holds exactly cap bytes (unspecified contents, modelled as zeros) and the
offset starts at zero. -/
def StringArena.with_capacity (cap : Nat) : Option StringArena :=
  if cap ≤ ISIZE_MAX then some { arena := List.replicate cap 0, idx := 0 } else none

/-- Bytes written so far: returns the offset field. -/
def StringArena.len (a : StringArena) : Nat :=
  a.idx

/-- Whether the arena is empty. -/
def StringArena.is_empty (a : StringArena) : Bool :=
  a.len == 0

/-- Capacity of the arena: the length of the backing buffer. -/
def StringArena.capacity (a : StringArena) : Nat :=
  a.arena.length

/-- One append call.  Mirrors the source: compute new_len = len + idx with
wrapping usize addition; if capacity < new_len fail with shortfall
new_len - capacity and leave the state untouched; otherwise take the mutable
slice [idx, new_len) and copy the input into it, which aborts unless the
slice is well formed (idx ≤ new_len, already new_len ≤ capacity) and its
length equals the input length; on success advance the offset and return a
handle over the written range. -/
def StringArena.add (a : StringArena) (s : List Nat) : AddOutcome × StringArena :=
  let len := s.length
  let idx := a.len
  let new_len := (len + idx) % USIZE
  if a.capacity < new_len then
    (AddOutcome.exceedsCapacity (new_len - a.capacity), a)
  else if idx ≤ new_len ∧ new_len - idx = len then
    (AddOutcome.ok { start := idx, stop := new_len },
     { arena := a.arena.take idx ++ s ++ a.arena.drop new_len, idx := new_len })
  else
    (AddOutcome.panicked, a)

/-- The bytes a handle reads from a buffer: the slice [start, stop). -/
def readHandle (buf : List Nat) (h : Handle) : List Nat :=
  (buf.drop h.start).take (h.stop - h.start)

/-- Well-formedness of an arena state: the offset is inside the buffer and
the buffer is small enough to have been allocated.  Every state produced by
construction satisfies this and append preserves it. -/
def StringArena.Wf (a : StringArena) : Prop :=
  a.idx ≤ a.arena.length ∧ a.arena.length ≤ ISIZE_MAX

instance (a : StringArena) : Decidable a.Wf :=
  inferInstanceAs (Decidable (a.idx ≤ a.arena.length ∧ a.arena.length ≤ ISIZE_MAX))

/-- Run a sequence of appends, collecting the handles; none as soon as one
append does not succeed. -/
def StringArena.addAll (a : StringArena) : List (List Nat) → Option (StringArena × List Handle)
  | [] => some (a, [])
  | s :: ss =>
    match a.add s with
    | (AddOutcome.ok h, a1) =>
      match a1.addAll ss with
      | some (a2, hs) => some (a2, h :: hs)
      | none => none
    | _ => none

/-- Run a sequence of appends for their state effect only, keeping going
whether each one succeeds or fails. -/
def StringArena.addSeq (a : StringArena) : List (List Nat) → StringArena
  | [] => a
  | s :: ss => StringArena.addSeq (a.add s).2 ss

/-- Handles chained head to tail between the offsets lo and hi: each handle
starts where the previous one stopped, the first at lo and the last at hi. -/
def Chained : Nat → Nat → List Handle → Prop
  | lo, hi, [] => lo = hi
  | lo, hi, h :: t => h.start = lo ∧ lo ≤ h.stop ∧ Chained h.stop hi t

theorem USIZE_eq : USIZE = 18446744073709551616 := by norm_num [USIZE]

theorem ISIZE_MAX_eq : ISIZE_MAX = 9223372036854775807 := by norm_num [ISIZE_MAX]

/-- Inversion of a successful append: the handle covers exactly the range
from the old offset over the input length, that range fits in the buffer,
the offset advances by the input length, and the buffer is the old committed
prefix, then the input bytes, then the untouched tail. -/
theorem add_ok_inv {a a1 : StringArena} {s : List Nat} {h : Handle}
    (e : a.add s = (AddOutcome.ok h, a1)) :
    h.start = a.idx ∧ h.stop = a.idx + s.length ∧
    a.idx + s.length ≤ a.arena.length ∧
    a1.idx = a.idx + s.length ∧
    a1.arena = a.arena.take a.idx ++ s ++ a.arena.drop (a.idx + s.length) := by
  simp only [StringArena.add, StringArena.len, StringArena.capacity] at e
  split at e
  · simp at e
  next h1 =>
    split at e
    next h2 =>
      obtain ⟨e1, e2⟩ := Prod.mk.injEq .. ▸ e
      have hnl : (s.length + a.idx) % USIZE = a.idx + s.length := by omega
      rw [hnl] at h1 e1 e2
      have e1' := AddOutcome.ok.inj e1
      refine ⟨?_, ?_, by omega, ?_, ?_⟩
      · rw [← e1']
      · rw [← e1']
      · rw [← e2]
      · rw [← e2]
    · simp at e

/-- The capacity is unchanged by any append, successful or not. -/
theorem add_capacity_eq (a : StringArena) (s : List Nat) :
    ((a.add s).2).capacity = a.capacity := by
  simp only [StringArena.add, StringArena.len, StringArena.capacity]
  split
  · rfl
  next h1 =>
    split
    next h2 =>
      simp only [List.length_append, List.length_take, List.length_drop]
      omega
    · rfl

/-- An append preserves the bound of the offset by the capacity. -/
theorem add_preserves_le (a : StringArena) (s : List Nat)
    (h : a.idx ≤ a.capacity) : ((a.add s).2).idx ≤ ((a.add s).2).capacity := by
  rw [add_capacity_eq]
  simp only [StringArena.add, StringArena.len, StringArena.capacity] at h ⊢
  split
  · exact h
  next h1 =>
    split
    next h2 => exact Nat.le_of_not_lt h1
    · exact h

/-- The offset never decreases across an append, whatever its outcome. -/
theorem add_idx_mono (a : StringArena) (s : List Nat) :
    a.idx ≤ ((a.add s).2).idx := by
  simp only [StringArena.add, StringArena.len, StringArena.capacity]
  split
  · exact Nat.le_refl _
  next h1 =>
    split
    next h2 => exact h2.1
    · exact Nat.le_refl _

/-- Claim C2: on a well-formed arena, appending an input that does not fit
fails with the capacity error whose shortfall is offset + length − capacity,
and the arena state (offset and buffer alike) is returned unchanged. -/
theorem add_fails_when_over_capacity (a : StringArena) (s : List Nat)
    (hwf : a.Wf) (hs : s.length ≤ ISIZE_MAX)
    (hover : a.capacity < a.idx + s.length) :
    a.add s = (AddOutcome.exceedsCapacity (a.idx + s.length - a.capacity), a) := by
  obtain ⟨hw1, hw2⟩ := hwf
  have hcap : a.capacity = a.arena.length := rfl
  have hlt : s.length + a.idx < USIZE := by
    rw [USIZE_eq]; rw [ISIZE_MAX_eq] at hs hw2; omega
  have hmod : (s.length + a.idx) % USIZE = s.length + a.idx := Nat.mod_eq_of_lt hlt
  simp only [StringArena.add, StringArena.len, StringArena.capacity, hmod]
  rw [hcap] at hover
  rw [if_pos (by omega)]
  have : s.length + a.idx = a.idx + s.length := Nat.add_comm _ _
  rw [this]

/-- Witness for claim C2 at a concrete input: a capacity-2 arena rejects a
3-byte input with shortfall 1 and is returned unchanged. -/
theorem add_fails_when_over_capacity_inst :
    (StringArena.mk [0, 0] 0).Wf ∧
    (StringArena.mk [0, 0] 0).add [1, 2, 3] =
      (AddOutcome.exceedsCapacity 1, StringArena.mk [0, 0] 0) :=
  ⟨by decide, add_fails_when_over_capacity (StringArena.mk [0, 0] 0) [1, 2, 3]
    (by decide) (by decide) (by decide)⟩

/-- Claim C3: on a well-formed arena, appending an input that fits succeeds:
the input bytes are copied into the buffer at the old offset, the offset
advances by the input length, and the returned handle covers exactly that
range and reads back the input verbatim. -/
theorem add_succeeds_within_capacity (a : StringArena) (s : List Nat)
    (hwf : a.Wf) (hfit : a.idx + s.length ≤ a.capacity) :
    a.add s =
      (AddOutcome.ok { start := a.idx, stop := a.idx + s.length },
       { arena := a.arena.take a.idx ++ s ++ a.arena.drop (a.idx + s.length),
         idx := a.idx + s.length }) ∧
    readHandle ((a.add s).2).arena { start := a.idx, stop := a.idx + s.length } = s := by
  obtain ⟨hw1, hw2⟩ := hwf
  have hcap : a.capacity = a.arena.length := rfl
  rw [hcap] at hfit
  have hlt : s.length + a.idx < USIZE := by
    rw [USIZE_eq]; rw [ISIZE_MAX_eq] at hw2; omega
  have hmod : (s.length + a.idx) % USIZE = s.length + a.idx := Nat.mod_eq_of_lt hlt
  have hadd : a.add s =
      (AddOutcome.ok { start := a.idx, stop := a.idx + s.length },
       { arena := a.arena.take a.idx ++ s ++ a.arena.drop (a.idx + s.length),
         idx := a.idx + s.length }) := by
    simp only [StringArena.add, StringArena.len, StringArena.capacity, hmod]
    rw [if_neg (by omega), if_pos (by omega)]
    have hc : s.length + a.idx = a.idx + s.length := Nat.add_comm _ _
    rw [hc]
  refine ⟨hadd, ?_⟩
  rw [hadd]
  simp only [readHandle]
  have hpre : (a.arena.take a.idx).length = a.idx :=
    List.length_take_of_le (by omega)
  rw [List.append_assoc, List.drop_left' hpre]
  have hstop : a.idx + s.length - a.idx = s.length := by omega
  rw [hstop, List.take_left' rfl]

/-- Witness for claim C3 at a concrete input: appending two bytes to a fresh
capacity-3 arena returns a handle over [0, 2) reading them back. -/
theorem add_succeeds_within_capacity_inst :
    (StringArena.mk [0, 0, 0] 0).Wf ∧
    (StringArena.mk [0, 0, 0] 0).add [97, 98] =
      (AddOutcome.ok { start := 0, stop := 2 }, StringArena.mk [97, 98, 0] 2) ∧
    readHandle (((StringArena.mk [0, 0, 0] 0).add [97, 98]).2).arena
      { start := 0, stop := 2 } = [97, 98] :=
  ⟨by decide,
   (add_succeeds_within_capacity (StringArena.mk [0, 0, 0] 0) [97, 98]
      (by decide) (by decide)).1,
   (add_succeeds_within_capacity (StringArena.mk [0, 0, 0] 0) [97, 98]
      (by decide) (by decide)).2⟩

/-- Characterization of the capacity-error outcome: an append reports a
capacity error exactly when the capacity is below the wrapped candidate
offset, and the shortfall it carries is that wrapped offset minus the
capacity. -/
theorem add_err_iff (a : StringArena) (s : List Nat) (k : Nat) :
    (a.add s).1 = AddOutcome.exceedsCapacity k ↔
      a.capacity < (s.length + a.idx) % USIZE ∧
      k = (s.length + a.idx) % USIZE - a.capacity := by
  simp only [StringArena.add, StringArena.len, StringArena.capacity]
  split
  next h1 => simp [h1, eq_comm]
  next h1 =>
    split
    next h2 => simp [h1]
    next h2 => simp [h1]

/-- Claim C6: the offset is non-decreasing across any sequence of append
calls, successful or failing, and an arena whose offset is positive never
returns to offset zero. -/
theorem len_monotone_addSeq (a : StringArena) (ss : List (List Nat)) :
    a.len ≤ (a.addSeq ss).len ∧ (0 < a.len → 0 < (a.addSeq ss).len) := by
  induction ss generalizing a with
  | nil => exact ⟨Nat.le_refl _, fun h => h⟩
  | cons s ss ih =>
    have h1 : a.len ≤ ((a.add s).2).len := add_idx_mono a s
    have h2 := ih (a.add s).2
    simp only [StringArena.addSeq]
    exact ⟨Nat.le_trans h1 h2.1, fun h => h2.2 (Nat.lt_of_lt_of_le h h1)⟩

/-- Witness for claim C6 at a concrete run: one fitting append and one
failing append leave the offset at 2, never below the starting offset 1. -/
theorem len_monotone_addSeq_inst :
    (StringArena.mk [0, 0] 1).len ≤ ((StringArena.mk [0, 0] 1).addSeq [[5], [6, 7]]).len ∧
    0 < (StringArena.mk [0, 0] 1).len ∧
    0 < ((StringArena.mk [0, 0] 1).addSeq [[5], [6, 7]]).len :=
  ⟨(len_monotone_addSeq (StringArena.mk [0, 0] 1) [[5], [6, 7]]).1, by decide,
   (len_monotone_addSeq (StringArena.mk [0, 0] 1) [[5], [6, 7]]).2 (by decide)⟩

/-- Claim C8: constructing with capacity 0 is permitted; on the resulting
arena the empty append succeeds with an empty handle and every non-empty
(machine-representable) input fails with shortfall equal to its length. -/
theorem zero_capacity_arena (s : List Nat) (h1 : s ≠ []) (h2 : s.length < USIZE) :
    StringArena.with_capacity 0 = some (StringArena.mk [] 0) ∧
    (StringArena.mk [] 0).add [] =
      (AddOutcome.ok { start := 0, stop := 0 }, StringArena.mk [] 0) ∧
    ((StringArena.mk [] 0).add s).1 = AddOutcome.exceedsCapacity s.length := by
  refine ⟨by decide, by decide, ?_⟩
  have hl : 0 < s.length := List.length_pos.mpr h1
  rw [add_err_iff]
  simp [StringArena.capacity, Nat.mod_eq_of_lt h2, hl]

/-- Witness for claim C8 at a concrete input: the capacity-0 arena rejects
the one-byte input with shortfall 1. -/
theorem zero_capacity_arena_inst :
    [120] ≠ ([] : List Nat) ∧ ([120] : List Nat).length < USIZE ∧
    ((StringArena.mk [] 0).add [120]).1 = AddOutcome.exceedsCapacity 1 :=
  ⟨by decide, by decide, (zero_capacity_arena [120] (by decide) (by decide)).2.2⟩

/-- Claim C10: whenever an append reports a capacity error, the shortfall it
carries is at least 1. -/
theorem shortfall_positive (a : StringArena) (s : List Nat) (k : Nat)
    (e : (a.add s).1 = AddOutcome.exceedsCapacity k) : 1 ≤ k := by
  obtain ⟨h1, h2⟩ := (add_err_iff a s k).1 e
  omega

/-- Witness for claim C10 at a concrete input: the reported shortfall 1 is
at least 1. -/
theorem shortfall_positive_inst :
    ((StringArena.mk [] 0).add [104]).1 = AddOutcome.exceedsCapacity 1 ∧ 1 ≤ 1 :=
  ⟨by decide, shortfall_positive (StringArena.mk [] 0) [104] 1 (by decide)⟩

/-- Claim C9: when the mathematical sum of the input length and the offset
reaches the usize width, the outcome of the append is governed by the
wrapped sum: a capacity error occurs exactly when the capacity is below the
wrapped sum, any reported shortfall is computed from the wrapped sum, and
the shortfall the mathematical sum would give is never reported. -/
theorem add_uses_wrapped_sum (a : StringArena) (s : List Nat)
    (hover : USIZE ≤ s.length + a.idx) :
    ((a.add s).1 = AddOutcome.exceedsCapacity ((s.length + a.idx) % USIZE - a.capacity)
        ↔ a.capacity < (s.length + a.idx) % USIZE) ∧
    (∀ k, (a.add s).1 = AddOutcome.exceedsCapacity k →
        k = (s.length + a.idx) % USIZE - a.capacity) ∧
    (a.add s).1 ≠ AddOutcome.exceedsCapacity (s.length + a.idx - a.capacity) := by
  refine ⟨⟨fun e => ((add_err_iff a s _).1 e).1,
          fun hc => (add_err_iff a s _).2 ⟨hc, rfl⟩⟩,
         fun k e => ((add_err_iff a s k).1 e).2, fun e => ?_⟩
  obtain ⟨hc, hk⟩ := (add_err_iff a s _).1 e
  have hmlt : (s.length + a.idx) % USIZE < USIZE :=
    Nat.mod_lt _ (by rw [USIZE_eq]; omega)
  generalize hm : (s.length + a.idx) % USIZE = m at hc hk hmlt
  omega

/-- Witness for claim C9 at a concrete overflowing input: with offset
USIZE − 1 and a 5-byte input the sum wraps to 4, so a capacity-3 arena
reports shortfall 1 and never the astronomically large mathematical
shortfall. -/
theorem add_uses_wrapped_sum_inst :
    USIZE ≤ ([1, 2, 3, 4, 5] : List Nat).length + (StringArena.mk [0, 0, 0] (USIZE - 1)).idx ∧
    ((StringArena.mk [0, 0, 0] (USIZE - 1)).add [1, 2, 3, 4, 5]).1 =
      AddOutcome.exceedsCapacity 1 ∧
    ((StringArena.mk [0, 0, 0] (USIZE - 1)).add [1, 2, 3, 4, 5]).1 ≠
      AddOutcome.exceedsCapacity (5 + (USIZE - 1) - 3) :=
  ⟨by decide, by decide,
   (add_uses_wrapped_sum (StringArena.mk [0, 0, 0] (USIZE - 1)) [1, 2, 3, 4, 5]
      (by decide)).2.2⟩

/-- States reachable by constructing an arena and performing any sequence of
append calls on it; the inspectors do not mutate, so they do not appear. -/
inductive Reachable : StringArena → Prop where
  | init (cap : Nat) (a : StringArena) :
      StringArena.with_capacity cap = some a → Reachable a
  | step (a : StringArena) (s : List Nat) :
      Reachable a → Reachable ((a.add s).2)

/-- Claim C4: in every state reachable by construction followed by any
sequence of operations, 0 ≤ length() ≤ capacity(). -/
theorem reachable_len_le_capacity (a : StringArena) (h : Reachable a) :
    0 ≤ a.len ∧ a.len ≤ a.capacity := by
  refine ⟨Nat.zero_le _, ?_⟩
  induction h with
  | init cap a e =>
    simp only [StringArena.with_capacity] at e
    split at e
    next hcap =>
      injection e with e'
      rw [← e']
      simp [StringArena.len, StringArena.capacity]
    · exact absurd e (by simp)
  | step a s _ ih => exact add_preserves_le a s ih

/-- Witness for claim C4: the invariant applied to a freshly constructed
capacity-2 arena. -/
theorem reachable_len_le_capacity_inst :
    0 ≤ (StringArena.mk [0, 0] 0).len ∧
    (StringArena.mk [0, 0] 0).len ≤ (StringArena.mk [0, 0] 0).capacity :=
  reachable_len_le_capacity (StringArena.mk [0, 0] 0)
    (Reachable.init 2 (StringArena.mk [0, 0] 0) (by decide))

/-- Reading a handle only looks at the buffer up to the handle's stop:
buffers agreeing on that much agree on the handle's bytes. -/
theorem readHandle_congr {buf1 buf2 : List Nat} (h : Handle)
    (e : buf1.take h.stop = buf2.take h.stop) :
    readHandle buf1 h = readHandle buf2 h := by
  by_cases hls : h.start ≤ h.stop
  · have k : ∀ buf : List Nat, readHandle buf h = (buf.take h.stop).drop h.start := by
      intro buf
      simp only [readHandle]
      rw [List.take_drop]
      have hsum : h.start + (h.stop - h.start) = h.stop := by omega
      rw [hsum]
    rw [k, k, e]
  · have hz : h.stop - h.start = 0 := by omega
    simp only [readHandle, hz, List.take_zero]

/-- Master invariant of a run of successful appends: the final state stays
well formed, the capacity and the committed prefix are untouched, the offset
advances by the total input length, each returned handle reads back its own
input from the final buffer, and the handles chain contiguously from the
starting offset to the final offset. -/
theorem addAll_spec : ∀ (ss : List (List Nat)) (a a2 : StringArena) (hs : List Handle),
    a.Wf → a.addAll ss = some (a2, hs) →
    a2.Wf ∧ a2.arena.length = a.arena.length ∧
    a2.idx = a.idx + (ss.map List.length).sum ∧
    a2.arena.take a.idx = a.arena.take a.idx ∧
    hs.map (readHandle a2.arena) = ss ∧
    Chained a.idx a2.idx hs := by
  intro ss
  induction ss with
  | nil =>
    intro a a2 hs hwf e
    simp only [StringArena.addAll] at e
    obtain ⟨e1, e2⟩ := Prod.mk.injEq .. ▸ Option.some.inj e
    subst e1; subst e2
    exact ⟨hwf, rfl, by simp, rfl, rfl, rfl⟩
  | cons s ss ih =>
    intro a a2 hs hwf e
    simp only [StringArena.addAll] at e
    split at e
    next h a1 heq =>
      split at e
      next a2' hs' heq2 =>
        obtain ⟨e1, e2⟩ := Prod.mk.injEq .. ▸ Option.some.inj e
        subst e1; subst e2
        obtain ⟨hst, hsp, hfits, hidx1, harena1⟩ := add_ok_inv heq
        have hpre : (a.arena.take a.idx).length = a.idx :=
          List.length_take_of_le (by omega)
        have hlen1 : a1.arena.length = a.arena.length := by
          rw [harena1]
          simp only [List.length_append, List.length_take, List.length_drop]
          omega
        have hwf1 : a1.Wf := ⟨by omega, by rw [hlen1]; exact hwf.2⟩
        obtain ⟨hwf2, hlen2, hidx2, htake2, hmap2, hch2⟩ := ih a1 a2' hs' hwf1 heq2
        have hle01 : a.idx ≤ a1.idx := by omega
        have htake1 : a1.arena.take a.idx = a.arena.take a.idx := by
          rw [harena1, List.append_assoc, List.take_left' hpre]
        have htake02 : a2'.arena.take a.idx = a.arena.take a.idx := by
          have m1 : min a.idx a1.idx = a.idx := by omega
          calc a2'.arena.take a.idx
              = (a2'.arena.take a1.idx).take a.idx := by rw [List.take_take, m1]
            _ = (a1.arena.take a1.idx).take a.idx := by rw [htake2]
            _ = a1.arena.take a.idx := by rw [List.take_take, m1]
            _ = a.arena.take a.idx := htake1
        have hhead1 : readHandle a1.arena h = s := by
          rw [harena1]
          simp only [readHandle, hst, hsp]
          rw [List.append_assoc, List.drop_left' hpre]
          have hd : a.idx + s.length - a.idx = s.length := by omega
          rw [hd, List.take_left' rfl]
        have hhead : readHandle a2'.arena h = s := by
          rw [readHandle_congr h ?_]
          · exact hhead1
          · have hstop1 : h.stop = a1.idx := by omega
            rw [hstop1, htake2]
        refine ⟨hwf2, hlen2.trans hlen1, ?_, htake02, ?_, ?_, ?_, ?_⟩
        · rw [hidx2, hidx1]
          simp only [List.map_cons, List.sum_cons]
          omega
        · simp only [List.map_cons]
          rw [hhead, hmap2]
        · omega
        · omega
        · have hstop1 : h.stop = a1.idx := by omega
          rw [hstop1]
          exact hch2
      · exact absurd e (by simp)
    · exact absurd e (by simp)

/-- Claim C1: for every sequence of successful appends on a freshly
constructed arena, the concatenation of the handles' byte contents equals
the concatenation of the inputs in order, and the length equals the sum of
the input byte lengths. -/
theorem addAll_concat_and_length (cap : Nat) (a0 a2 : StringArena)
    (ss : List (List Nat)) (hs : List Handle)
    (h0 : StringArena.with_capacity cap = some a0)
    (e : a0.addAll ss = some (a2, hs)) :
    (hs.map (readHandle a2.arena)).flatten = ss.flatten ∧
    a2.len = (ss.map List.length).sum := by
  have h0' : a0 = StringArena.mk (List.replicate cap 0) 0 ∧ cap ≤ ISIZE_MAX := by
    simp only [StringArena.with_capacity] at h0
    split at h0
    next hcap => exact ⟨(Option.some.inj h0).symm, hcap⟩
    · exact absurd h0 (by simp)
  obtain ⟨rfl, hcap⟩ := h0'
  have hwf : (StringArena.mk (List.replicate cap 0) 0).Wf :=
    ⟨by simp, by simp [hcap]⟩
  obtain ⟨_, _, hidx, _, hmap, _⟩ := addAll_spec ss _ a2 hs hwf e
  constructor
  · rw [hmap]
  · simp only [StringArena.len, hidx]
    omega

/-- Witness for claim C1 at a concrete run: two appends on a capacity-4
arena concatenate back to the inputs and leave length 3. -/
theorem addAll_concat_and_length_inst :
    StringArena.with_capacity 4 = some (StringArena.mk [0, 0, 0, 0] 0) ∧
    (StringArena.mk [0, 0, 0, 0] 0).addAll [[1], [2, 3]] =
      some (StringArena.mk [1, 2, 3, 0] 3, [Handle.mk 0 1, Handle.mk 1 3]) ∧
    ([Handle.mk 0 1, Handle.mk 1 3].map (readHandle [1, 2, 3, 0])).flatten =
      ([[1], [2, 3]] : List (List Nat)).flatten ∧
    (StringArena.mk [1, 2, 3, 0] 3).len = ([[1], [2, 3]].map List.length).sum :=
  ⟨by decide, by decide,
   addAll_concat_and_length 4 (StringArena.mk [0, 0, 0, 0] 0)
     (StringArena.mk [1, 2, 3, 0] 3) [[1], [2, 3]] [Handle.mk 0 1, Handle.mk 1 3]
     (by decide) (by decide)⟩

/-- Claim C5: a handle lying inside the committed prefix reads the same
bytes after any further run of successful appends. -/
theorem handle_stable_under_addAll (a a2 : StringArena) (h : Handle)
    (ss : List (List Nat)) (hs : List Handle)
    (hwf : a.Wf) (hcommitted : h.stop ≤ a.idx)
    (e : a.addAll ss = some (a2, hs)) :
    readHandle a2.arena h = readHandle a.arena h := by
  obtain ⟨_, _, _, htake, _, _⟩ := addAll_spec ss a a2 hs hwf e
  apply readHandle_congr
  have m1 : min h.stop a.idx = h.stop := by omega
  calc a2.arena.take h.stop
      = (a2.arena.take a.idx).take h.stop := by rw [List.take_take, m1]
    _ = (a.arena.take a.idx).take h.stop := by rw [htake]
    _ = a.arena.take h.stop := by rw [List.take_take, m1]

/-- Witness for claim C5 at a concrete run: the handle over [0, 2) reads the
same two bytes before and after a further successful append. -/
theorem handle_stable_under_addAll_inst :
    (StringArena.mk [104, 105, 0, 0] 2).Wf ∧
    (Handle.mk 0 2).stop ≤ (StringArena.mk [104, 105, 0, 0] 2).idx ∧
    (StringArena.mk [104, 105, 0, 0] 2).addAll [[120]] =
      some (StringArena.mk [104, 105, 120, 0] 3, [Handle.mk 2 3]) ∧
    readHandle [104, 105, 120, 0] (Handle.mk 0 2) =
      readHandle [104, 105, 0, 0] (Handle.mk 0 2) :=
  ⟨by decide, by decide, by decide,
   handle_stable_under_addAll (StringArena.mk [104, 105, 0, 0] 2)
     (StringArena.mk [104, 105, 120, 0] 3) (Handle.mk 0 2) [[120]] [Handle.mk 2 3]
     (by decide) (by decide) (by decide)⟩

/-- Bounds carried by a chain of handles: the chain's endpoints are ordered
and every handle in it starts no earlier than lo, is well ordered, and stops
no later than hi. -/
theorem chained_getElem_bounds : ∀ (hs : List Handle) (lo hi : Nat), Chained lo hi hs →
    lo ≤ hi ∧ ∀ i (hilt : i < hs.length),
      lo ≤ hs[i].start ∧ hs[i].start ≤ hs[i].stop ∧ hs[i].stop ≤ hi := by
  intro hs
  induction hs with
  | nil =>
    intro lo hi hch
    exact ⟨Nat.le_of_eq hch, fun i hilt => absurd hilt (by simp)⟩
  | cons h t ih =>
    intro lo hi hch
    obtain ⟨h1, h2, h3⟩ := hch
    obtain ⟨hle, hidx⟩ := ih h.stop hi h3
    refine ⟨by omega, ?_⟩
    intro i hilt
    cases i with
    | zero =>
      simp only [List.getElem_cons_zero]
      exact ⟨by omega, by omega, by omega⟩
    | succ n =>
      have hn : n < t.length := by simpa using hilt
      have hb := hidx n hn
      simp only [List.getElem_cons_succ]
      exact ⟨by omega, hb.2.1, hb.2.2⟩

/-- Contiguity carried by a chain of handles: each handle starts where the
previous one stops. -/
theorem chained_contiguous : ∀ (hs : List Handle) (lo hi : Nat), Chained lo hi hs →
    ∀ i (hi1 : i + 1 < hs.length), hs[i + 1].start = hs[i].stop := by
  intro hs
  induction hs with
  | nil => intro lo hi _ i hi1; exact absurd hi1 (by simp)
  | cons h t ih =>
    intro lo hi hch i hi1
    obtain ⟨h1, h2, h3⟩ := hch
    cases i with
    | zero =>
      cases t with
      | nil => simp at hi1
      | cons g t' =>
        obtain ⟨g1, g2, g3⟩ := h3
        simp only [List.getElem_cons_succ, List.getElem_cons_zero]
        exact g1
    | succ n =>
      simp only [List.getElem_cons_succ]
      exact ih h.stop hi h3 n (by simpa using hi1)

/-- Monotone disjointness carried by a chain of handles: an earlier handle
stops no later than a later one starts. -/
theorem chained_monotone : ∀ (hs : List Handle) (lo hi : Nat), Chained lo hi hs →
    ∀ i j (hilt : i < hs.length) (hjlt : j < hs.length), i < j →
      hs[i].stop ≤ hs[j].start := by
  intro hs
  induction hs with
  | nil => intro lo hi _ i j hilt; exact absurd hilt (by simp)
  | cons h t ih =>
    intro lo hi hch i j hilt hjlt hij
    obtain ⟨h1, h2, h3⟩ := hch
    cases i with
    | zero =>
      cases j with
      | zero => omega
      | succ m =>
        simp only [List.getElem_cons_zero, List.getElem_cons_succ]
        have hm : m < t.length := by simpa using hjlt
        exact ((chained_getElem_bounds t h.stop hi h3).2 m hm).1
    | succ n =>
      cases j with
      | zero => omega
      | succ m =>
        simp only [List.getElem_cons_succ]
        exact ih h.stop hi h3 n m (by simpa using hilt) (by simpa using hjlt) (by omega)

/-- Claim C7: the handles returned by a run of successful appends cover
pairwise disjoint, monotonically increasing ranges that are contiguous in
insertion order. -/
theorem handles_disjoint_contiguous_monotone (a a2 : StringArena)
    (ss : List (List Nat)) (hs : List Handle) (hwf : a.Wf)
    (e : a.addAll ss = some (a2, hs)) :
    (∀ i j (hilt : i < hs.length) (hjlt : j < hs.length), i < j →
      hs[i].stop ≤ hs[j].start) ∧
    (∀ i (hi0 : i < hs.length) (hi1 : i + 1 < hs.length),
      hs[i + 1].start = hs[i].stop) ∧
    (∀ i (hilt : i < hs.length), hs[i].start ≤ hs[i].stop) := by
  obtain ⟨_, _, _, _, _, hch⟩ := addAll_spec ss a a2 hs hwf e
  refine ⟨chained_monotone hs a.idx a2.idx hch, ?_, ?_⟩
  · intro i hi0 hi1
    exact chained_contiguous hs a.idx a2.idx hch i hi1
  · intro i hilt
    exact ((chained_getElem_bounds hs a.idx a2.idx hch).2 i hilt).2.1

/-- Witness for claim C7 at a concrete run: the two handles issued by
appends of lengths 1 and 2 satisfy disjointness, contiguity, and ordering at
indices 0 and 1. -/
theorem handles_disjoint_contiguous_monotone_inst :
    (StringArena.mk [0, 0, 0, 0] 0).Wf ∧
    (StringArena.mk [0, 0, 0, 0] 0).addAll [[1], [2, 3]] =
      some (StringArena.mk [1, 2, 3, 0] 3, [Handle.mk 0 1, Handle.mk 1 3]) ∧
    (Handle.mk 0 1).stop ≤ (Handle.mk 1 3).start :=
  ⟨by decide, by decide,
   (handles_disjoint_contiguous_monotone (StringArena.mk [0, 0, 0, 0] 0)
      (StringArena.mk [1, 2, 3, 0] 3) [[1], [2, 3]] [Handle.mk 0 1, Handle.mk 1 3]
      (by decide) (by decide)).1 0 1 (by decide) (by decide) (by decide)⟩
